import Mathlib

/-!
Verification of the PhraseKit word-ingestion script
(`.github/workflows/add-word.py`).

The script reads raw multi-line word text and POS text, normalizes them
(strip + lowercase, blank lines dropped), validates every word against the
regex `^[a-z]+$`, and on success folds each (word, pos) pair into the
per-POS JSON stores `_adjective.json`, `_adverb.json`, `_noun.json`,
`_verb.json`, each holding three lists `pending`, `safe`, `unsafe`.

The embedding below models the persisted state as a record of four
optional stores (`none` = backing file absent), the script run as a pure
function from the two input texts and the initial state to an output
record (exit status, printed text, notifier message, final state, and the
trace of file loads/saves), and the raw-JSON layer separately for the
schema question.  The field `unsafeSet` models the JSON key `"unsafe"`.
-/

/-- One category record as held in a `_pos.json` file: the three word
lists.  `unsafeSet` is the `"unsafe"` key of the JSON shape. -/
structure Store where
  pending : List String
  safe : List String
  unsafeSet : List String
  deriving DecidableEq, Repr

/-- The empty record `{"pending": [], "safe": [], "unsafe": []}` that
`load_or_create_json` produces when the file does not exist. -/
def emptyStore : Store :=
  { pending := [], safe := [], unsafeSet := [] }

/-- `load_or_create_json`: return the parsed file when it exists, else the
fresh empty record. -/
def load_or_create_json (file : Option Store) : Store :=
  file.getD emptyStore

/-- The four recognized POS tags — the keys of `file_map`. -/
inductive Pos where
  | adjective
  | adverb
  | noun
  | verb
  deriving DecidableEq, Repr

/-- `pos in file_map` / `file_map[pos]`: which store a POS string names,
`none` when the tag is unrecognized. -/
def posOf (p : String) : Option Pos :=
  if p = "adjective" then some Pos.adjective
  else if p = "adverb" then some Pos.adverb
  else if p = "noun" then some Pos.noun
  else if p = "verb" then some Pos.verb
  else none

/-- The persisted state: the content of each of the four JSON files,
`none` when the file is absent. -/
structure FS where
  adjective : Option Store
  adverb : Option Store
  noun : Option Store
  verb : Option Store
  deriving DecidableEq, Repr

/-- Read one file slot. -/
def FS.get (fs : FS) : Pos → Option Store
  | Pos.adjective => fs.adjective
  | Pos.adverb => fs.adverb
  | Pos.noun => fs.noun
  | Pos.verb => fs.verb

/-- Overwrite one file slot. -/
def FS.set (fs : FS) : Pos → Option Store → FS
  | Pos.adjective, v => { fs with adjective := v }
  | Pos.adverb, v => { fs with adverb := v }
  | Pos.noun, v => { fs with noun := v }
  | Pos.verb, v => { fs with verb := v }

/-- `save_json`: write the record to the file (the file exists afterwards). -/
def save_json (fs : FS) (q : Pos) (s : Store) : FS :=
  fs.set q (some s)

/-- The record as seen through `load_or_create_json`. -/
def contents (fs : FS) (q : Pos) : Store :=
  load_or_create_json (fs.get q)

/-- `strip()`: drop leading and trailing whitespace characters. -/
def trimChars (cs : List Char) : List Char :=
  ((cs.dropWhile Char.isWhitespace).reverse.dropWhile Char.isWhitespace).reverse

/-- `splitlines()` for `\n`-separated text: the character lists between
the newline characters. -/
def splitNl : List Char → List (List Char)
  | [] => [[]]
  | c :: cs =>
    if c = '\n' then [] :: splitNl cs
    else
      match splitNl cs with
      | [] => [[c]]
      | l :: ls => (c :: l) :: ls

/-- The normalization applied to one kept raw line:
`line.strip().lower()`. -/
def normLine (cs : List Char) : String :=
  ⟨(trimChars cs).map Char.toLower⟩

/-- The comprehension
`[w.strip().lower() for w in text.splitlines() if w.strip()]`:
split into lines, keep the non-blank ones, stripped and lowercased. -/
def normalizeLines (raw : String) : List String :=
  ((splitNl raw.toList).filter (fun cs => !(trimChars cs).isEmpty)).map normLine

/-- The validator's rule, the regex `^[a-z]+$`: one or more lowercase
ASCII letters and nothing else. -/
def isLowerAlpha (w : String) : Bool :=
  w != "" && w.toList.all (fun c => 'a' ≤ c && c ≤ 'z')

/-- `invalid_words = [w for w in word_list if not re.match(r'^[a-z]+$', w)]`. -/
def invalidWordsOf (ws : List String) : List String :=
  ws.filter (fun w => !isLowerAlpha w)

/-- The membership test of the merge loop, as a proposition: the word is
in one of the three lists of the record. -/
def InStore (s : Store) (w : String) : Prop :=
  w ∈ s.pending ∨ w ∈ s.safe ∨ w ∈ s.unsafeSet

instance (s : Store) (w : String) : Decidable (InStore s w) := by
  unfold InStore
  infer_instance

/-- The body of the merge loop on a loaded record:
`if word not in pending and not in safe and not in unsafe: pending.append(word)`. -/
def addWord (s : Store) (w : String) : Store :=
  if InStore s w then s else { s with pending := s.pending ++ [w] }

/-- One iteration of the nested loop for the pair `(word, pos)`: skip
unrecognized tags, else load, conditionally append, save. -/
def mergePair (fs : FS) (w p : String) : FS :=
  match posOf p with
  | none => fs
  | some q => save_json fs q (addWord (load_or_create_json (fs.get q)) w)

/-- The nested loop `for word in word_list: for pos in pos_list: ...`. -/
def mergeAll (fs : FS) (ws ps : List String) : FS :=
  ws.foldl (fun a w => ps.foldl (fun b p => mergePair b w p) a) fs

/-- A file operation on one of the four stores. -/
inductive Event where
  | load (q : Pos)
  | save (q : Pos)
  deriving DecidableEq, Repr

/-- The file operations of one loop iteration: a recognized tag is always
loaded and then saved (whether or not the word is appended); an
unrecognized tag touches nothing. -/
def pairEvents (p : String) : List Event :=
  match posOf p with
  | none => []
  | some q => [Event.load q, Event.save q]

/-- The file operations of the whole nested loop, in order. -/
def traceOf (ws ps : List String) : List Event :=
  (ws.map (fun _ => (ps.map pairEvents).flatten)).flatten

/-- What one run prints locally when the normalized word or POS list is
empty. -/
def emptyMessage : String :=
  "No valid words or POS provided."

/-- The single failure message built from all offending words, comma
joined, with the explanatory text around it. -/
def invalidMessage (ws : List String) : String :=
  "The following words are invalid and cannot be processed: "
    ++ String.intercalate ", " ws ++ ". Only alphabetic words are allowed."

/-- The success message. -/
def successMessage : String :=
  "Words successfully added to the pending list in the appropriate JSON files."

/-- The observable outcome of one run: the exit status (`true` = exit 0),
the locally printed message, the message posted to the issue notifier (if
any), the final persisted state, and the trace of store file operations. -/
structure RunOutput where
  exitZero : Bool
  printed : String
  notified : Option String
  fs : FS
  events : List Event
  deriving DecidableEq, Repr

/-- The whole script as a function of the two raw texts and the initial
persisted state: empty-input check, validation gate (which posts the
failure message to the notifier), then the merge loop. -/
def run (wordsText posText : String) (fs : FS) : RunOutput :=
  if (normalizeLines wordsText).isEmpty || (normalizeLines posText).isEmpty then
    { exitZero := false, printed := emptyMessage, notified := none,
      fs := fs, events := [] }
  else if (invalidWordsOf (normalizeLines wordsText)).isEmpty then
    { exitZero := true, printed := successMessage, notified := none,
      fs := mergeAll fs (normalizeLines wordsText) (normalizeLines posText),
      events := traceOf (normalizeLines wordsText) (normalizeLines posText) }
  else
    { exitZero := false,
      printed := invalidMessage (invalidWordsOf (normalizeLines wordsText)),
      notified := some (invalidMessage (invalidWordsOf (normalizeLines wordsText))),
      fs := fs, events := [] }

/-- The all-absent initial state: no store file exists yet. -/
def fs0 : FS :=
  { adjective := none, adverb := none, noun := none, verb := none }

/-- The inner loop `for pos in pos_list` of the merge engine, for one
word. -/
def innerLoop (fs : FS) (w : String) (ps : List String) : FS :=
  ps.foldl (fun b p => mergePair b w p) fs

/-- The effect of the loop on a single record once the file indirection
is peeled away: fold the loop body over the word list. -/
def addWords (s : Store) (ws : List String) : Store :=
  ws.foldl addWord s

/-- Whether some tag in the POS list names the store `q`. -/
def refersTo (ps : List String) (q : Pos) : Bool :=
  ps.any (fun p => posOf p == some q)

/-- The words the loop appends to a record that starts as `s`, in
processing order: a word is kept when it is absent from the record as it
stands at that point. -/
def newWords (s : Store) : List String → List String
  | [] => []
  | w :: ws =>
    if InStore s w then newWords s ws
    else w :: newWords (addWord s w) ws

/-- The first occurrences of a list's elements, in order: the head, then
the first occurrences of the tail with the head's repeats dropped. -/
def firstOccs : List String → List String
  | [] => []
  | w :: ws => w :: firstOccs (ws.filter (fun x => x != w))
termination_by l => l.length
decreasing_by
  simp only [List.length_cons]
  exact Nat.lt_succ_of_le (List.length_filter_le _ _)

/-!
The raw-JSON layer: `json.load` hands the merge loop an untyped value,
and the script's `schema` is declared but never passed to
`jsonschema.validate`, so nothing checks the shape at load time.  The
loop's `json_data["pending"]` accesses are modelled here on a JSON value
type, with `none` standing for the exception Python raises (KeyError for
a missing key, TypeError for indexing a non-object or iterating a
non-list value).
-/

/-- A parsed JSON value. -/
inductive JVal where
  | str (s : String)
  | num (n : Int)
  | boolean (b : Bool)
  | null
  | arr (xs : List JVal)
  | obj (fields : List (String × JVal))

/-- Key lookup in a JSON object's field list. -/
def jLookup : List (String × JVal) → String → Option JVal
  | [], _ => none
  | kv :: rest, k => if kv.1 = k then some kv.2 else jLookup rest k

/-- Whether a JSON value is a string. -/
def isStrVal : JVal → Bool
  | JVal.str _ => true
  | _ => false

/-- One required key as the declared `schema` constrains it: present,
an array, every item a string. -/
def checkKey (fields : List (String × JVal)) (k : String) : Bool :=
  match jLookup fields k with
  | some (JVal.arr xs) => xs.all isStrVal
  | _ => false

/-- The `schema` dict of the source: an object with the required keys
`"pending"`, `"safe"`, `"unsafe"`, each an array of strings (other keys
are unconstrained by the schema). -/
def schemaOk : JVal → Bool
  | JVal.obj fields =>
    checkKey fields "pending" && checkKey fields "safe"
      && checkKey fields "unsafe"
  | _ => false

/-- Python's `word in data[k]` for an array value: `==` against a string
is true only for an equal string. -/
def containsStr (xs : List JVal) (w : String) : Bool :=
  xs.any (fun v =>
    match v with
    | JVal.str s => s == w
    | _ => false)

/-- Replace the value of one key of a JSON object's field list. -/
def setKeyVal (fields : List (String × JVal)) (k : String) (v : JVal) :
    List (String × JVal) :=
  fields.map (fun kv => if kv.1 = k then (kv.1, v) else kv)

/-- The merge-loop body on the untyped loaded value: read the three keys,
test membership, append to `"pending"` when the word is new.  `none`
models the exception raised when a key is missing or a value is not a
list (the schema-conforming shapes all succeed; `JVal.obj []` raises
KeyError in Python, as here). -/
def mergeRaw (data : JVal) (w : String) : Option JVal :=
  match data with
  | JVal.obj fields =>
    match jLookup fields "pending", jLookup fields "safe",
        jLookup fields "unsafe" with
    | some (JVal.arr p), some (JVal.arr s), some (JVal.arr u) =>
      if containsStr p w || containsStr s w || containsStr u w then
        some data
      else
        some (JVal.obj (setKeyVal fields "pending"
          (JVal.arr (p ++ [JVal.str w]))))
    | _, _, _ => none
  | _ => none

/-- `load_or_create_json` on the raw file: an existing file's parsed
value is returned as-is — the declared `schema` is never applied — and an
absent file yields the fresh record. -/
def loadOrCreateRaw : Option JVal → JVal
  | some v => v
  | none =>
    JVal.obj
      [("pending", JVal.arr []), ("safe", JVal.arr []),
        ("unsafe", JVal.arr [])]

/-- The documented shape of one record: no list holds a duplicate, and no
word sits in two of the three lists at once. -/
def StoreOk (s : Store) : Prop :=
  s.pending.Nodup ∧ s.safe.Nodup ∧ s.unsafeSet.Nodup ∧
    (∀ w ∈ s.pending, w ∉ s.safe ∧ w ∉ s.unsafeSet) ∧
    (∀ w ∈ s.safe, w ∉ s.unsafeSet)

instance (s : Store) : Decidable (StoreOk s) := by
  unfold StoreOk
  infer_instance

/-- Every store (an absent file reads as the empty record) satisfies
`StoreOk`. -/
def FSOk (fs : FS) : Prop :=
  ∀ q : Pos, StoreOk (contents fs q)

/-! Basic facts about the four file slots. -/

theorem FS.get_set_self (fs : FS) (q : Pos) (v : Option Store) :
    (fs.set q v).get q = v := by
  cases q <;> rfl

theorem FS.get_set_ne (fs : FS) (q q' : Pos) (v : Option Store)
    (h : q' ≠ q) : (fs.set q v).get q' = fs.get q' := by
  cases q <;> cases q' <;> first | rfl | exact absurd rfl h

theorem FS.set_get_self (fs : FS) (q : Pos) :
    fs.set q (fs.get q) = fs := by
  cases q <;> rfl

theorem FS.ext_get {fs fs' : FS} (h : ∀ q, fs.get q = fs'.get q) :
    fs = fs' := by
  obtain ⟨a, b, c, d⟩ := fs
  obtain ⟨a', b', c', d'⟩ := fs'
  have h1 := h Pos.adjective
  have h2 := h Pos.adverb
  have h3 := h Pos.noun
  have h4 := h Pos.verb
  simp only [FS.get] at h1 h2 h3 h4
  subst h1; subst h2; subst h3; subst h4
  rfl

/-! The loop body on one record. -/

theorem addWord_of_inStore {s : Store} {w : String} (h : InStore s w) :
    addWord s w = s :=
  if_pos h

theorem addWord_of_not_inStore {s : Store} {w : String}
    (h : ¬ InStore s w) :
    addWord s w = { s with pending := s.pending ++ [w] } :=
  if_neg h

theorem addWord_safe (s : Store) (w : String) :
    (addWord s w).safe = s.safe := by
  unfold addWord; split <;> rfl

theorem addWord_unsafeSet (s : Store) (w : String) :
    (addWord s w).unsafeSet = s.unsafeSet := by
  unfold addWord; split <;> rfl

theorem inStore_addWord_self (s : Store) (w : String) :
    InStore (addWord s w) w := by
  by_cases h : InStore s w
  · rw [addWord_of_inStore h]; exact h
  · rw [addWord_of_not_inStore h]
    exact Or.inl (List.mem_append_right _ (List.mem_singleton.mpr rfl))

theorem inStore_addWord_mono {s : Store} {v : String} (u : String)
    (h : InStore s v) : InStore (addWord s u) v := by
  unfold addWord; split
  · exact h
  · rcases h with hp | hs | hu
    · exact Or.inl (List.mem_append_left _ hp)
    · exact Or.inr (Or.inl hs)
    · exact Or.inr (Or.inr hu)

theorem addWord_idem (s : Store) (w : String) :
    addWord (addWord s w) w = addWord s w :=
  addWord_of_inStore (inStore_addWord_self s w)

/-! The loop body folded over the whole word list. -/

theorem addWords_nil (s : Store) : addWords s [] = s := rfl

theorem addWords_cons (s : Store) (w : String) (ws : List String) :
    addWords s (w :: ws) = addWords (addWord s w) ws := rfl

theorem addWords_safe (ws : List String) (s : Store) :
    (addWords s ws).safe = s.safe := by
  induction ws generalizing s with
  | nil => rfl
  | cons w ws ih => rw [addWords_cons, ih, addWord_safe]

theorem addWords_unsafeSet (ws : List String) (s : Store) :
    (addWords s ws).unsafeSet = s.unsafeSet := by
  induction ws generalizing s with
  | nil => rfl
  | cons w ws ih => rw [addWords_cons, ih, addWord_unsafeSet]

theorem inStore_addWords_mono {s : Store} {v : String}
    (ws : List String) (h : InStore s v) : InStore (addWords s ws) v := by
  induction ws generalizing s with
  | nil => exact h
  | cons w ws ih => exact ih (inStore_addWord_mono w h)

theorem inStore_addWords_of_mem {s : Store} {w : String}
    {ws : List String} (h : w ∈ ws) : InStore (addWords s ws) w := by
  induction ws generalizing s with
  | nil => cases h
  | cons u ws ih =>
    rcases List.mem_cons.mp h with rfl | hmem
    · exact inStore_addWords_mono ws (inStore_addWord_self s w)
    · exact ih hmem

theorem addWords_noop {s : Store} {ws : List String}
    (h : ∀ w ∈ ws, InStore s w) : addWords s ws = s := by
  induction ws with
  | nil => rfl
  | cons w ws ih =>
    rw [addWords_cons, addWord_of_inStore (h w (List.mem_cons_self w ws))]
    exact ih (fun v hv => h v (List.mem_cons_of_mem w hv))

theorem addWords_idem (s : Store) (ws : List String) :
    addWords (addWords s ws) ws = addWords s ws :=
  addWords_noop (fun _ hw => inStore_addWords_of_mem hw)

theorem addWords_pending (ws : List String) (s : Store) :
    (addWords s ws).pending = s.pending ++ newWords s ws := by
  induction ws generalizing s with
  | nil => simp [newWords, addWords]
  | cons w ws ih =>
    rw [addWords_cons]
    by_cases h : InStore s w
    · rw [addWord_of_inStore h, ih]
      simp [newWords, h]
    · rw [ih]
      simp [newWords, h, addWord_of_not_inStore h, List.append_assoc]

theorem mergePair_none {p : String} (fs : FS) (w : String)
    (h : posOf p = none) : mergePair fs w p = fs := by
  unfold mergePair; rw [h]

theorem mergePair_get_eq {p : String} {q : Pos} (fs : FS) (w : String)
    (h : posOf p = some q) :
    (mergePair fs w p).get q = some (addWord (contents fs q) w) := by
  unfold mergePair; rw [h]
  exact FS.get_set_self fs q _

theorem mergePair_get_ne {p : String} {q : Pos} (fs : FS) (w : String)
    (h : posOf p ≠ some q) :
    (mergePair fs w p).get q = fs.get q := by
  unfold mergePair
  cases hp : posOf p with
  | none => rfl
  | some q' =>
    have hne : q ≠ q' := fun he => h (by rw [hp, he])
    exact FS.get_set_ne fs q' q _ hne

theorem contents_mergePair_eq {p : String} {q : Pos} (fs : FS)
    (w : String) (h : posOf p = some q) :
    contents (mergePair fs w p) q = addWord (contents fs q) w := by
  unfold contents
  rw [mergePair_get_eq fs w h]
  rfl

theorem contents_mergePair_ne {p : String} {q : Pos} (fs : FS)
    (w : String) (h : posOf p ≠ some q) :
    contents (mergePair fs w p) q = contents fs q := by
  unfold contents
  rw [mergePair_get_ne fs w h]

theorem innerLoop_cons (fs : FS) (w p : String) (ps : List String) :
    innerLoop fs w (p :: ps) = innerLoop (mergePair fs w p) w ps := rfl

theorem refersTo_cons_pos {p : String} {q : Pos} (ps : List String)
    (h : posOf p = some q) : refersTo (p :: ps) q = true := by
  simp [refersTo, h]

theorem refersTo_cons_neg {p : String} {q : Pos} (ps : List String)
    (h : posOf p ≠ some q) : refersTo (p :: ps) q = refersTo ps q := by
  simp [refersTo, List.any_cons, beq_eq_false_iff_ne.mpr h]

theorem innerLoop_get (fs : FS) (w : String) (ps : List String)
    (q : Pos) :
    (innerLoop fs w ps).get q =
      if refersTo ps q then some (addWord (contents fs q) w)
      else fs.get q := by
  induction ps generalizing fs with
  | nil => simp [innerLoop, refersTo]
  | cons p ps ih =>
    rw [innerLoop_cons]
    by_cases hp : posOf p = some q
    · rw [ih, refersTo_cons_pos ps hp, if_pos rfl]
      by_cases hr : refersTo ps q = true
      · rw [if_pos hr, contents_mergePair_eq fs w hp, addWord_idem]
      · rw [if_neg hr, mergePair_get_eq fs w hp]
    · rw [ih, refersTo_cons_neg ps hp, contents_mergePair_ne fs w hp,
        mergePair_get_ne fs w hp]

theorem mergeAll_nil (fs : FS) (ps : List String) :
    mergeAll fs [] ps = fs := rfl

theorem mergeAll_cons (fs : FS) (w : String) (ws ps : List String) :
    mergeAll fs (w :: ws) ps = mergeAll (innerLoop fs w ps) ws ps := rfl

theorem mergeAll_get {ws : List String} (fs : FS) (ps : List String)
    (q : Pos) (hws : ws ≠ []) :
    (mergeAll fs ws ps).get q =
      if refersTo ps q then some (addWords (contents fs q) ws)
      else fs.get q := by
  induction ws generalizing fs with
  | nil => cases hws rfl
  | cons w ws ih =>
    cases ws with
    | nil =>
      rw [mergeAll_cons, mergeAll_nil, innerLoop_get]
      rfl
    | cons w2 ws2 =>
      rw [mergeAll_cons, ih (innerLoop fs w ps) (by simp)]
      by_cases hr : refersTo ps q = true
      · rw [if_pos hr, if_pos hr]
        have hc : contents (innerLoop fs w ps) q = addWord (contents fs q) w := by
          unfold contents
          rw [innerLoop_get, if_pos hr]
          rfl
        rw [hc]
        rfl
      · rw [if_neg hr, if_neg hr, innerLoop_get, if_neg hr]

theorem mergeAll_contents {ws : List String} (fs : FS)
    (ps : List String) (q : Pos) (hws : ws ≠ []) :
    contents (mergeAll fs ws ps) q =
      if refersTo ps q then addWords (contents fs q) ws
      else contents fs q := by
  unfold contents
  rw [mergeAll_get fs ps q hws]
  by_cases hr : refersTo ps q = true
  · rw [if_pos hr, if_pos hr]; rfl
  · rw [if_neg hr, if_neg hr]

theorem newWords_not_inStore {s : Store} {ws : List String} :
    ∀ x ∈ newWords s ws, ¬ InStore s x := by
  induction ws generalizing s with
  | nil => intro x hx; cases hx
  | cons w ws ih =>
    intro x hx
    by_cases h : InStore s w
    · simp only [newWords, if_pos h] at hx
      exact ih x hx
    · simp only [newWords, if_neg h] at hx
      rcases List.mem_cons.mp hx with rfl | hmem
      · exact h
      · intro hxs
        exact ih x hmem (inStore_addWord_mono w hxs)

/-! First occurrences: the order in which the loop meets fresh words. -/

theorem firstOccs_nil : firstOccs [] = [] := by
  rw [firstOccs]

theorem firstOccs_cons (w : String) (ws : List String) :
    firstOccs (w :: ws) = w :: firstOccs (ws.filter (fun x => x != w)) := by
  rw [firstOccs]

theorem firstOccs_sublist_aux (n : Nat) :
    ∀ l : List String, l.length ≤ n → List.Sublist (firstOccs l) l := by
  induction n with
  | zero =>
    intro l hl
    rw [List.length_eq_zero.mp (Nat.le_zero.mp hl), firstOccs_nil]
  | succ n ih =>
    intro l hl
    cases l with
    | nil => rw [firstOccs_nil]
    | cons w ws =>
      rw [firstOccs_cons]
      refine List.Sublist.cons₂ w ?_
      have h1 : List.Sublist (firstOccs (ws.filter (fun x => x != w)))
          (ws.filter (fun x => x != w)) := by
        refine ih _ (Nat.le_trans (List.length_filter_le _ _) ?_)
        exact Nat.le_of_succ_le_succ hl
      exact h1.trans (List.filter_sublist ws)

theorem firstOccs_sublist (l : List String) :
    List.Sublist (firstOccs l) l :=
  firstOccs_sublist_aux l.length l (Nat.le_refl _)

theorem firstOccs_nodup_aux (n : Nat) :
    ∀ l : List String, l.length ≤ n → (firstOccs l).Nodup := by
  induction n with
  | zero =>
    intro l hl
    rw [List.length_eq_zero.mp (Nat.le_zero.mp hl), firstOccs_nil]
    exact List.nodup_nil
  | succ n ih =>
    intro l hl
    cases l with
    | nil => rw [firstOccs_nil]; exact List.nodup_nil
    | cons w ws =>
      rw [firstOccs_cons]
      refine List.nodup_cons.mpr ⟨?_, ?_⟩
      · intro hmem
        have hin : w ∈ ws.filter (fun x => x != w) :=
          (firstOccs_sublist _).subset hmem
        have := (List.mem_filter.mp hin).2
        simp at this
      · refine ih _ (Nat.le_trans (List.length_filter_le _ _) ?_)
        exact Nat.le_of_succ_le_succ hl

theorem firstOccs_nodup (l : List String) : (firstOccs l).Nodup :=
  firstOccs_nodup_aux l.length l (Nat.le_refl _)

theorem inStore_addWord_iff_of_ne {s : Store} {w x : String}
    (h : x ≠ w) : InStore (addWord s w) x ↔ InStore s x := by
  unfold addWord
  split
  · exact Iff.rfl
  · unfold InStore
    simp [List.mem_append, h]

theorem newWords_filter_of_inStore {s : Store} {w : String}
    (l : List String) (h : InStore s w) :
    newWords s l = newWords s (l.filter (fun x => x != w)) := by
  induction l generalizing s with
  | nil => rfl
  | cons v l ih =>
    by_cases hv : v = w
    · subst hv
      have hf : (v :: l).filter (fun x => x != v) =
          l.filter (fun x => x != v) := by simp
      rw [hf, newWords, if_pos h]
      exact ih h
    · have hf : (v :: l).filter (fun x => x != w) =
          v :: l.filter (fun x => x != w) := by simp [hv]
      rw [hf, newWords, newWords]
      by_cases hsv : InStore s v
      · rw [if_pos hsv, if_pos hsv]
        exact ih h
      · rw [if_neg hsv, if_neg hsv, ih (inStore_addWord_mono v h)]

theorem newWords_eq_firstOccs_aux (n : Nat) :
    ∀ (l : List String) (s : Store), l.length ≤ n →
      newWords s l =
        (firstOccs l).filter (fun w => decide (¬ InStore s w)) := by
  induction n with
  | zero =>
    intro l s hl
    rw [List.length_eq_zero.mp (Nat.le_zero.mp hl), firstOccs_nil]
    rfl
  | succ n ih =>
    intro l s hl
    cases l with
    | nil => rw [firstOccs_nil]; rfl
    | cons w ws =>
      have hlen : (ws.filter (fun x => x != w)).length ≤ n :=
        Nat.le_trans (List.length_filter_le _ _) (Nat.le_of_succ_le_succ hl)
      rw [firstOccs_cons, newWords]
      by_cases h : InStore s w
      · rw [if_pos h, List.filter_cons_of_neg (by simp [h]),
          newWords_filter_of_inStore ws h]
        exact ih _ s hlen
      · rw [if_neg h, List.filter_cons_of_pos (by simp [h]),
          newWords_filter_of_inStore ws (inStore_addWord_self s w),
          ih _ (addWord s w) hlen]
        congr 1
        refine List.filter_congr ?_
        intro x hx
        have hxw : x ≠ w := by
          have hin : x ∈ ws.filter (fun y => y != w) :=
            (firstOccs_sublist _).subset hx
          have := (List.mem_filter.mp hin).2
          simpa using this
        simp [inStore_addWord_iff_of_ne hxw]

theorem newWords_eq_firstOccs (s : Store) (l : List String) :
    newWords s l =
      (firstOccs l).filter (fun w => decide (¬ InStore s w)) :=
  newWords_eq_firstOccs_aux l.length l s (Nat.le_refl _)

/-! The three branches of the script. -/

theorem run_empty {wt pt : String} (fs : FS)
    (h : normalizeLines wt = [] ∨ normalizeLines pt = []) :
    run wt pt fs =
      { exitZero := false, printed := emptyMessage, notified := none,
        fs := fs, events := [] } := by
  unfold run
  have hc : ((normalizeLines wt).isEmpty || (normalizeLines pt).isEmpty) = true := by
    rcases h with h | h <;> simp [h]
  rw [if_pos hc]

theorem run_invalid {wt pt : String} (fs : FS)
    (hw : normalizeLines wt ≠ []) (hp : normalizeLines pt ≠ [])
    (hi : invalidWordsOf (normalizeLines wt) ≠ []) :
    run wt pt fs =
      { exitZero := false,
        printed := invalidMessage (invalidWordsOf (normalizeLines wt)),
        notified := some (invalidMessage (invalidWordsOf (normalizeLines wt))),
        fs := fs, events := [] } := by
  unfold run
  have h1 : ¬ (((normalizeLines wt).isEmpty || (normalizeLines pt).isEmpty) = true) := by
    simp [hw, hp]
  have h2 : ¬ ((invalidWordsOf (normalizeLines wt)).isEmpty = true) := by
    simp [hi]
  rw [if_neg h1, if_neg h2]

theorem run_success {wt pt : String} (fs : FS)
    (hw : normalizeLines wt ≠ []) (hp : normalizeLines pt ≠ [])
    (hv : invalidWordsOf (normalizeLines wt) = []) :
    run wt pt fs =
      { exitZero := true, printed := successMessage, notified := none,
        fs := mergeAll fs (normalizeLines wt) (normalizeLines pt),
        events := traceOf (normalizeLines wt) (normalizeLines pt) } := by
  unfold run
  have h1 : ¬ (((normalizeLines wt).isEmpty || (normalizeLines pt).isEmpty) = true) := by
    simp [hw, hp]
  have h2 : (invalidWordsOf (normalizeLines wt)).isEmpty = true := by
    simp [hv]
  rw [if_neg h1, if_pos h2]

/-! Runs whose POS list holds no recognized tag. -/

theorem pairEvents_none {p : String} (h : posOf p = none) :
    pairEvents p = [] := by
  unfold pairEvents; rw [h]

theorem innerLoop_all_unrecognized {ps : List String} (fs : FS)
    (w : String) (h : ∀ p ∈ ps, posOf p = none) :
    innerLoop fs w ps = fs := by
  induction ps generalizing fs with
  | nil => rfl
  | cons p ps ih =>
    rw [innerLoop_cons, mergePair_none fs w (h p (List.mem_cons_self p ps))]
    exact ih fs (fun p' hp' => h p' (List.mem_cons_of_mem p hp'))

theorem mergeAll_all_unrecognized {ps : List String} (fs : FS)
    (ws : List String) (h : ∀ p ∈ ps, posOf p = none) :
    mergeAll fs ws ps = fs := by
  induction ws generalizing fs with
  | nil => rfl
  | cons w ws ih =>
    rw [mergeAll_cons, innerLoop_all_unrecognized fs w h]
    exact ih fs

theorem flatten_pairEvents_nil {ps : List String}
    (h : ∀ p ∈ ps, posOf p = none) : (ps.map pairEvents).flatten = [] := by
  induction ps with
  | nil => rfl
  | cons p ps ih =>
    rw [List.map_cons, List.flatten_cons,
      pairEvents_none (h p (List.mem_cons_self p ps)), List.nil_append]
    exact ih (fun p' hp' => h p' (List.mem_cons_of_mem p hp'))

theorem traceOf_all_unrecognized {ps : List String} (ws : List String)
    (h : ∀ p ∈ ps, posOf p = none) : traceOf ws ps = [] := by
  unfold traceOf
  simp [flatten_pairEvents_nil h]

/-! The record invariant is preserved by the loop body. -/

theorem storeOk_addWord {s : Store} (w : String) (h : StoreOk s) :
    StoreOk (addWord s w) := by
  by_cases hw : InStore s w
  · rw [addWord_of_inStore hw]; exact h
  · rw [addWord_of_not_inStore hw]
    obtain ⟨hp, hs, hu, hps, hsu⟩ := h
    have hw1 : w ∉ s.pending := fun hc => hw (Or.inl hc)
    have hw2 : w ∉ s.safe := fun hc => hw (Or.inr (Or.inl hc))
    have hw3 : w ∉ s.unsafeSet := fun hc => hw (Or.inr (Or.inr hc))
    refine ⟨?_, hs, hu, ?_, hsu⟩
    · rw [List.nodup_append]
      refine ⟨hp, List.nodup_singleton w, ?_⟩
      intro a ha hb
      rw [List.mem_singleton] at hb
      subst hb
      exact hw1 ha
    · intro x hx
      rcases List.mem_append.mp hx with hx | hx
      · exact hps x hx
      · rw [List.mem_singleton] at hx
        subst hx
        exact ⟨hw2, hw3⟩

theorem storeOk_addWords {s : Store} (ws : List String) (h : StoreOk s) :
    StoreOk (addWords s ws) := by
  induction ws generalizing s with
  | nil => exact h
  | cons w ws ih => exact ih (storeOk_addWord w h)

/-- C1: for every batch in which at least one normalized word fails the
rule "one or more lowercase ASCII letters, nothing else", the program
terminates with failure status, performs no store file operation, and
leaves the persisted state of every store exactly as it was. -/
theorem invalid_batch_rejected_atomically (wt pt : String) (fs : FS)
    (h : ∃ w ∈ normalizeLines wt, isLowerAlpha w = false) :
    (run wt pt fs).exitZero = false ∧ (run wt pt fs).fs = fs ∧
      (run wt pt fs).events = [] := by
  obtain ⟨w, hw, hv⟩ := h
  have hwne : normalizeLines wt ≠ [] := by
    intro he; rw [he] at hw; cases hw
  by_cases hpne : normalizeLines pt = []
  · rw [run_empty fs (Or.inr hpne)]
    exact ⟨rfl, rfl, rfl⟩
  · have hi : invalidWordsOf (normalizeLines wt) ≠ [] := by
      intro he
      have hmem : w ∈ invalidWordsOf (normalizeLines wt) :=
        List.mem_filter.mpr ⟨hw, by simp [hv]⟩
      rw [he] at hmem
      cases hmem
    rw [run_invalid fs hwne hpne hi]
    exact ⟨rfl, rfl, rfl⟩

/-- Witness for C1 at the concrete batch "a1\ncat" / "noun" and a
populated noun store. -/
theorem invalid_batch_rejected_atomically_witness :
    (∃ w ∈ normalizeLines "a1\ncat", isLowerAlpha w = false) ∧
    ((run "a1\ncat" "noun"
        { adjective := none, adverb := none,
          noun := some { pending := ["x"], safe := ["y"], unsafeSet := ["z"] },
          verb := none }).exitZero = false ∧
      (run "a1\ncat" "noun"
        { adjective := none, adverb := none,
          noun := some { pending := ["x"], safe := ["y"], unsafeSet := ["z"] },
          verb := none }).fs =
        { adjective := none, adverb := none,
          noun := some { pending := ["x"], safe := ["y"], unsafeSet := ["z"] },
          verb := none } ∧
      (run "a1\ncat" "noun"
        { adjective := none, adverb := none,
          noun := some { pending := ["x"], safe := ["y"], unsafeSet := ["z"] },
          verb := none }).events = []) :=
  ⟨by decide,
    invalid_batch_rejected_atomically "a1\ncat" "noun"
      { adjective := none, adverb := none,
        noun := some { pending := ["x"], safe := ["y"], unsafeSet := ["z"] },
        verb := none } (by decide)⟩

/-- C8: when the normalized word list or POS list is empty, the run fails,
prints the no-valid-input message ("No valid words or POS provided."),
calls no notifier, and neither reads nor writes any store. -/
theorem empty_input_fails_without_notification (wt pt : String) (fs : FS)
    (h : normalizeLines wt = [] ∨ normalizeLines pt = []) :
    (run wt pt fs).exitZero = false ∧
      (run wt pt fs).printed = emptyMessage ∧
      (run wt pt fs).notified = none ∧
      (run wt pt fs).fs = fs ∧
      (run wt pt fs).events = [] := by
  rw [run_empty fs h]
  exact ⟨rfl, rfl, rfl, rfl, rfl⟩

/-- Witness for C8 at whitespace-only word text. -/
theorem empty_input_fails_without_notification_witness :
    (normalizeLines "  \n " = [] ∨ normalizeLines "noun" = []) ∧
    ((run "  \n " "noun" fs0).exitZero = false ∧
      (run "  \n " "noun" fs0).printed = emptyMessage ∧
      (run "  \n " "noun" fs0).notified = none ∧
      (run "  \n " "noun" fs0).fs = fs0 ∧
      (run "  \n " "noun" fs0).events = []) :=
  ⟨by decide,
    empty_input_fails_without_notification "  \n " "noun" fs0 (by decide)⟩

/-- C6: on the invalid-words path, the single failure message holds every
offending word joined by commas inside the explanatory text, it is both
printed locally and delivered to the notifier, and the notifier is called
on no other path. -/
theorem invalid_words_reported_and_notified (wt pt : String) (fs : FS) :
    (normalizeLines wt ≠ [] → normalizeLines pt ≠ [] →
      invalidWordsOf (normalizeLines wt) ≠ [] →
      (run wt pt fs).printed =
        "The following words are invalid and cannot be processed: "
          ++ String.intercalate ", " (invalidWordsOf (normalizeLines wt))
          ++ ". Only alphabetic words are allowed." ∧
      (run wt pt fs).notified = some ((run wt pt fs).printed) ∧
      (run wt pt fs).exitZero = false) ∧
    ((run wt pt fs).notified ≠ none →
      invalidWordsOf (normalizeLines wt) ≠ [] ∧
      (run wt pt fs).notified =
        some (invalidMessage (invalidWordsOf (normalizeLines wt))) ∧
      (run wt pt fs).exitZero = false) := by
  constructor
  · intro hw hp hi
    rw [run_invalid fs hw hp hi]
    exact ⟨rfl, rfl, rfl⟩
  · intro hn
    by_cases hw : normalizeLines wt = []
    · rw [run_empty fs (Or.inl hw)] at hn
      exact absurd rfl hn
    by_cases hp : normalizeLines pt = []
    · rw [run_empty fs (Or.inr hp)] at hn
      exact absurd rfl hn
    by_cases hi : invalidWordsOf (normalizeLines wt) = []
    · rw [run_success fs hw hp hi] at hn
      exact absurd rfl hn
    · rw [run_invalid fs hw hp hi]
      exact ⟨hi, rfl, rfl⟩

/-- Witness for C6 at the batch "a1\nb2" / "noun": both offending words
appear in the one message, which is printed and notified. -/
theorem invalid_words_reported_and_notified_witness :
    ((run "a1\nb2" "noun" fs0).printed =
      "The following words are invalid and cannot be processed: "
        ++ String.intercalate ", " (invalidWordsOf (normalizeLines "a1\nb2"))
        ++ ". Only alphabetic words are allowed." ∧
      (run "a1\nb2" "noun" fs0).notified =
        some ((run "a1\nb2" "noun" fs0).printed) ∧
      (run "a1\nb2" "noun" fs0).exitZero = false) ∧
    invalidWordsOf (normalizeLines "a1\nb2") = ["a1", "b2"] :=
  ⟨(invalid_words_reported_and_notified "a1\nb2" "noun" fs0).1
      (by decide) (by decide) (by decide),
    by decide⟩

/-- C7: an unrecognized POS tag is skipped with no effect pair by pair,
and a batch of valid words whose POS list holds only unrecognized tags
succeeds with no store read or written. -/
theorem unrecognized_pos_is_harmless (wt pt : String) (fs : FS)
    (w p : String) :
    (posOf p = none → mergePair fs w p = fs ∧ pairEvents p = []) ∧
    (normalizeLines wt ≠ [] →
      (∀ u ∈ normalizeLines wt, isLowerAlpha u = true) →
      normalizeLines pt ≠ [] →
      (∀ p' ∈ normalizeLines pt, posOf p' = none) →
      (run wt pt fs).exitZero = true ∧ (run wt pt fs).fs = fs ∧
        (run wt pt fs).events = []) := by
  constructor
  · intro h
    exact ⟨mergePair_none fs w h, pairEvents_none h⟩
  · intro hw hval hp hun
    have hv : invalidWordsOf (normalizeLines wt) = [] := by
      refine List.filter_eq_nil_iff.mpr ?_
      intro a ha
      simp [hval a ha]
    rw [run_success fs hw hp hv]
    exact ⟨rfl, mergeAll_all_unrecognized fs _ hun,
      traceOf_all_unrecognized _ hun⟩

/-- Witness for C7 at the batch "cat" / "pronoun". -/
theorem unrecognized_pos_is_harmless_witness :
    (posOf "pronoun" = none ∧ mergePair fs0 "cat" "pronoun" = fs0 ∧
      pairEvents "pronoun" = []) ∧
    ((run "cat" "pronoun" fs0).exitZero = true ∧
      (run "cat" "pronoun" fs0).fs = fs0 ∧
      (run "cat" "pronoun" fs0).events = []) :=
  ⟨⟨by decide,
    (unrecognized_pos_is_harmless "cat" "pronoun" fs0 "cat" "pronoun").1
      (by decide)⟩,
    (unrecognized_pos_is_harmless "cat" "pronoun" fs0 "cat" "pronoun").2
      (by decide) (by decide) (by decide) (by decide)⟩

/-- C2: for each pair with a recognized tag, the engine reads the store
through create-if-absent, appends the word to `pending` exactly when it is
absent from all three lists, and saves the store (which exists
afterwards); on the batch "Cat\ncat\ndog" / "noun" from an absent noun
file, `pending` gains one "cat" and one "dog". -/
theorem merge_pair_appends_iff_absent (fs : FS) (w p : String) (q : Pos)
    (h : posOf p = some q) :
    ((fs.get q = none → contents fs q = emptyStore) ∧
      (¬ InStore (contents fs q) w →
        contents (mergePair fs w p) q =
          { contents fs q with
              pending := (contents fs q).pending ++ [w] }) ∧
      (InStore (contents fs q) w →
        contents (mergePair fs w p) q = contents fs q) ∧
      ((mergePair fs w p).get q).isSome = true) ∧
    ((run "Cat\ncat\ndog" "noun" fs0).fs.noun =
        some { pending := ["cat", "dog"], safe := [], unsafeSet := [] } ∧
      (contents (run "Cat\ncat\ndog" "noun" fs0).fs Pos.noun).pending.count
          "cat" = 1 ∧
      (contents (run "Cat\ncat\ndog" "noun" fs0).fs Pos.noun).pending.count
          "dog" = 1) := by
  refine ⟨⟨?_, ?_, ?_, ?_⟩, by decide, by decide, by decide⟩
  · intro hn
    unfold contents
    rw [hn]
    rfl
  · intro hni
    rw [contents_mergePair_eq fs w h, addWord_of_not_inStore hni]
  · intro hi
    rw [contents_mergePair_eq fs w h, addWord_of_inStore hi]
  · rw [mergePair_get_eq fs w h]
    rfl

/-- Witness for C2: applying the pair property at "dog" / "noun" on the
absent-file state. -/
theorem merge_pair_appends_iff_absent_witness :
    posOf "noun" = some Pos.noun ∧
    ¬ InStore (contents fs0 Pos.noun) "dog" ∧
    contents (mergePair fs0 "dog" "noun") Pos.noun =
      { contents fs0 Pos.noun with
          pending := (contents fs0 Pos.noun).pending ++ ["dog"] } :=
  ⟨by decide, by decide,
    ((merge_pair_appends_iff_absent fs0 "dog" "noun" Pos.noun
      (by decide)).1).2.1 (by decide)⟩

/-- C5: a run never edits `safe` or `unsafe`, never removes or moves a
word, and only ever appends to `pending` words that were in none of the
three lists of that store beforehand. -/
theorem run_only_appends_fresh_pending (wt pt : String) (fs : FS)
    (q : Pos) :
    (contents ((run wt pt fs).fs) q).safe = (contents fs q).safe ∧
    (contents ((run wt pt fs).fs) q).unsafeSet =
      (contents fs q).unsafeSet ∧
    ∃ L, (contents ((run wt pt fs).fs) q).pending =
        (contents fs q).pending ++ L ∧
      ∀ w ∈ L, w ∉ (contents fs q).pending ∧ w ∉ (contents fs q).safe ∧
        w ∉ (contents fs q).unsafeSet := by
  by_cases hw : normalizeLines wt = []
  · have hfs : (run wt pt fs).fs = fs := by rw [run_empty fs (Or.inl hw)]
    rw [hfs]
    exact ⟨rfl, rfl, [], (List.append_nil _).symm, fun w hw' => by cases hw'⟩
  by_cases hp : normalizeLines pt = []
  · have hfs : (run wt pt fs).fs = fs := by rw [run_empty fs (Or.inr hp)]
    rw [hfs]
    exact ⟨rfl, rfl, [], (List.append_nil _).symm, fun w hw' => by cases hw'⟩
  by_cases hv : invalidWordsOf (normalizeLines wt) = []
  · have hfs : (run wt pt fs).fs =
        mergeAll fs (normalizeLines wt) (normalizeLines pt) := by
      rw [run_success fs hw hp hv]
    rw [hfs, mergeAll_contents fs _ q hw]
    by_cases hr : refersTo (normalizeLines pt) q = true
    · rw [if_pos hr]
      refine ⟨addWords_safe _ _, addWords_unsafeSet _ _,
        newWords (contents fs q) (normalizeLines wt),
        addWords_pending _ _, ?_⟩
      intro w hwmem
      have hni := newWords_not_inStore w hwmem
      exact ⟨fun hc => hni (Or.inl hc),
        fun hc => hni (Or.inr (Or.inl hc)),
        fun hc => hni (Or.inr (Or.inr hc))⟩
    · rw [if_neg hr]
      exact ⟨rfl, rfl, [], (List.append_nil _).symm, fun w hw' => by cases hw'⟩
  · have hfs : (run wt pt fs).fs = fs := by rw [run_invalid fs hw hp hv]
    rw [hfs]
    exact ⟨rfl, rfl, [], (List.append_nil _).symm, fun w hw' => by cases hw'⟩

/-- C3: a run started from stores whose three lists are duplicate-free
and pairwise disjoint ends with stores that still are. -/
theorem run_preserves_disjointness (wt pt : String) (fs : FS)
    (h : FSOk fs) : FSOk ((run wt pt fs).fs) := by
  by_cases hw : normalizeLines wt = []
  · have hfs : (run wt pt fs).fs = fs := by rw [run_empty fs (Or.inl hw)]
    rw [hfs]; exact h
  by_cases hp : normalizeLines pt = []
  · have hfs : (run wt pt fs).fs = fs := by rw [run_empty fs (Or.inr hp)]
    rw [hfs]; exact h
  by_cases hv : invalidWordsOf (normalizeLines wt) = []
  · have hfs : (run wt pt fs).fs =
        mergeAll fs (normalizeLines wt) (normalizeLines pt) := by
      rw [run_success fs hw hp hv]
    intro q
    rw [hfs, mergeAll_contents fs _ q hw]
    by_cases hr : refersTo (normalizeLines pt) q = true
    · rw [if_pos hr]
      exact storeOk_addWords _ (h q)
    · rw [if_neg hr]
      exact h q
  · have hfs : (run wt pt fs).fs = fs := by rw [run_invalid fs hw hp hv]
    rw [hfs]; exact h

/-- Witness for C3 on the absent-file state and the batch "cat" / "noun". -/
theorem run_preserves_disjointness_witness :
    FSOk fs0 ∧ FSOk ((run "cat" "noun" fs0).fs) :=
  have h0 : FSOk fs0 := fun q => by cases q <;> decide
  ⟨h0, run_preserves_disjointness "cat" "noun" fs0 h0⟩

/-- C4: running the same batch twice from one initial state leaves the
state of the first run unchanged: the second run is a no-op on content. -/
theorem run_idempotent (wt pt : String) (fs : FS) :
    (run wt pt ((run wt pt fs).fs)).fs = (run wt pt fs).fs := by
  by_cases hw : normalizeLines wt = []
  · have hfs : (run wt pt fs).fs = fs := by rw [run_empty fs (Or.inl hw)]
    rw [hfs]
    exact hfs
  by_cases hp : normalizeLines pt = []
  · have hfs : (run wt pt fs).fs = fs := by rw [run_empty fs (Or.inr hp)]
    rw [hfs]
    exact hfs
  by_cases hv : invalidWordsOf (normalizeLines wt) = []
  · have h1 : (run wt pt fs).fs =
        mergeAll fs (normalizeLines wt) (normalizeLines pt) := by
      rw [run_success fs hw hp hv]
    have h2 : (run wt pt ((run wt pt fs).fs)).fs =
        mergeAll ((run wt pt fs).fs) (normalizeLines wt)
          (normalizeLines pt) := by
      rw [run_success _ hw hp hv]
    rw [h2, h1]
    apply FS.ext_get
    intro q
    by_cases hr : refersTo (normalizeLines pt) q = true
    · rw [mergeAll_get (mergeAll fs _ _) _ q hw, if_pos hr,
        mergeAll_get fs _ q hw, if_pos hr,
        mergeAll_contents fs _ q hw, if_pos hr, addWords_idem]
    · rw [mergeAll_get (mergeAll fs _ _) _ q hw, if_neg hr]
  · have hfs : (run wt pt fs).fs = fs := by rw [run_invalid fs hw hp hv]
    rw [hfs]
    exact hfs

theorem checkKey_arr {fields : List (String × JVal)} {k : String}
    (h : checkKey fields k = true) :
    ∃ xs, jLookup fields k = some (JVal.arr xs) := by
  unfold checkKey at h
  cases hp : jLookup fields k with
  | none => rw [hp] at h; simp at h
  | some v =>
    cases v with
    | arr xs => exact ⟨xs, rfl⟩
    | str s => rw [hp] at h; simp at h
    | num n => rw [hp] at h; simp at h
    | boolean b => rw [hp] at h; simp at h
    | null => rw [hp] at h; simp at h
    | obj fs => rw [hp] at h; simp at h

/-- C9: after a successful run, for a store named by some tag of the POS
list, the final `pending` is the initial `pending` followed by the first
occurrences (in word-list order, duplicate-free) of exactly the words not
already somewhere in the store, and `safe` and `unsafe` keep their exact
initial contents. -/
theorem pending_extended_in_first_occurrence_order (wt pt : String)
    (fs : FS) (q : Pos) (p : String) (hmem : p ∈ normalizeLines pt)
    (hq : posOf p = some q) (hs : (run wt pt fs).exitZero = true) :
    (contents ((run wt pt fs).fs) q).pending =
      (contents fs q).pending ++
        ((firstOccs (normalizeLines wt)).filter
          (fun w => decide (¬ InStore (contents fs q) w))) ∧
    (contents ((run wt pt fs).fs) q).safe = (contents fs q).safe ∧
    (contents ((run wt pt fs).fs) q).unsafeSet =
      (contents fs q).unsafeSet ∧
    List.Sublist (firstOccs (normalizeLines wt)) (normalizeLines wt) ∧
    (firstOccs (normalizeLines wt)).Nodup := by
  by_cases hw : normalizeLines wt = []
  · rw [run_empty fs (Or.inl hw)] at hs
    exact Bool.noConfusion hs
  by_cases hp : normalizeLines pt = []
  · rw [run_empty fs (Or.inr hp)] at hs
    exact Bool.noConfusion hs
  by_cases hv : invalidWordsOf (normalizeLines wt) = []
  · have hfs : (run wt pt fs).fs =
        mergeAll fs (normalizeLines wt) (normalizeLines pt) := by
      rw [run_success fs hw hp hv]
    have hr : refersTo (normalizeLines pt) q = true := by
      simp only [refersTo, List.any_eq_true, beq_iff_eq]
      exact ⟨p, hmem, hq⟩
    rw [hfs, mergeAll_contents fs _ q hw, if_pos hr]
    refine ⟨?_, addWords_safe _ _, addWords_unsafeSet _ _,
      firstOccs_sublist _, firstOccs_nodup _⟩
    rw [addWords_pending, newWords_eq_firstOccs]
  · rw [run_invalid fs hw hp hv] at hs
    exact Bool.noConfusion hs

/-- Witness for C9 at the batch "Cat\ncat\ndog" / "noun" from the
absent-file state. -/
theorem pending_extended_in_first_occurrence_order_witness :
    "noun" ∈ normalizeLines "noun" ∧ posOf "noun" = some Pos.noun ∧
    (run "Cat\ncat\ndog" "noun" fs0).exitZero = true ∧
    ((contents ((run "Cat\ncat\ndog" "noun" fs0).fs) Pos.noun).pending =
      (contents fs0 Pos.noun).pending ++
        ((firstOccs (normalizeLines "Cat\ncat\ndog")).filter
          (fun w => decide (¬ InStore (contents fs0 Pos.noun) w))) ∧
      (contents ((run "Cat\ncat\ndog" "noun" fs0).fs) Pos.noun).safe =
        (contents fs0 Pos.noun).safe ∧
      (contents ((run "Cat\ncat\ndog" "noun" fs0).fs) Pos.noun).unsafeSet =
        (contents fs0 Pos.noun).unsafeSet ∧
      List.Sublist (firstOccs (normalizeLines "Cat\ncat\ndog"))
        (normalizeLines "Cat\ncat\ndog") ∧
      (firstOccs (normalizeLines "Cat\ncat\ndog")).Nodup) :=
  ⟨by decide, by decide, by decide,
    pending_extended_in_first_occurrence_order "Cat\ncat\ndog" "noun" fs0
      Pos.noun "noun" (by decide) (by decide) (by decide)⟩

/-- C10: a loaded value that satisfies the declared schema always merges
without error; the loader applies no schema check (it returns any parsed
value unchanged); and the merge's key accesses do fail on a value
violating the schema, such as the empty object. -/
theorem merge_safe_only_under_unchecked_schema :
    (∀ (v : JVal) (w : String), schemaOk v = true →
      (mergeRaw v w).isSome = true) ∧
    (∀ v : JVal, loadOrCreateRaw (some v) = v) ∧
    schemaOk (JVal.obj []) = false ∧
    mergeRaw (JVal.obj []) "cat" = none ∧
    loadOrCreateRaw (some (JVal.obj [])) = JVal.obj [] := by
  refine ⟨?_, fun v => rfl, rfl, rfl, rfl⟩
  intro v w h
  cases v with
  | str s => simp [schemaOk] at h
  | num n => simp [schemaOk] at h
  | boolean b => simp [schemaOk] at h
  | null => simp [schemaOk] at h
  | arr xs => simp [schemaOk] at h
  | obj fields =>
    simp only [schemaOk, Bool.and_eq_true] at h
    obtain ⟨⟨h1, h2⟩, h3⟩ := h
    obtain ⟨xp, hp⟩ := checkKey_arr h1
    obtain ⟨xs2, hs2⟩ := checkKey_arr h2
    obtain ⟨xu, hu⟩ := checkKey_arr h3
    simp only [mergeRaw, hp, hs2, hu]
    split <;> rfl

/-- Witness for C10 at a schema-conforming record. -/
theorem merge_safe_only_under_unchecked_schema_witness :
    schemaOk (JVal.obj
      [("pending", JVal.arr [JVal.str "cat"]), ("safe", JVal.arr []),
        ("unsafe", JVal.arr [])]) = true ∧
    (mergeRaw (JVal.obj
      [("pending", JVal.arr [JVal.str "cat"]), ("safe", JVal.arr []),
        ("unsafe", JVal.arr [])]) "dog").isSome = true :=
  ⟨rfl,
    merge_safe_only_under_unchecked_schema.1
      (JVal.obj
        [("pending", JVal.arr [JVal.str "cat"]), ("safe", JVal.arr []),
          ("unsafe", JVal.arr [])]) "dog" rfl⟩
